import Mathlib

/-!
Verification development for the pick-list allocation engine in
erpnext/stock/doctype/pick_list/pick_list.py.

Modelling conventions:
* Python float quantities are embedded as exact rationals.
* The per-item candidate dictionaries produced by the
  get_available_item_locations providers become the structure ItemLocation;
  a missing or empty serial_no entry is modelled as the empty list
  (both are falsy in Python).
* External reads that are constant during one allocation run
  (the UOM flag must_be_whole_number, the over-delivery allowance,
  the numeric precision setting) are parameters or record fields.
* The while loop of get_items_with_location_and_quantity is embedded with an
  explicit fuel argument that strictly bounds the number of iterations; the
  entry point supplies 2 * queue.length + 2 which is enough for every run
  with a positive conversion factor (each iteration either drops a candidate,
  reduces remaining to zero, or is followed directly by the break branch).
-/

/-- One candidate of available stock, as built by the
get_available_item_locations providers: a warehouse, an available stock
quantity, an optional serial-number list and an optional reference to a
serial-and-batch bundle document. -/
structure ItemLocation where
  warehouse : String
  qty : ℚ
  serial_no : List String
  serial_and_batch_bundle : Option String
  deriving DecidableEq

/-- The slice of a requirement line (Pick List Item) read by the greedy
allocator: requested quantity, its stock-unit equivalent, the conversion
factor, and the externally looked-up flag telling whether the UOM of the
line requires whole numbers. -/
structure ItemDoc where
  qty : ℚ
  stock_qty : ℚ
  conversion_factor : ℚ
  uom_whole : Bool
  deriving DecidableEq

/-- One output row of the greedy allocator (the dict appended to
locations in get_items_with_location_and_quantity). -/
structure ResultRow where
  qty : ℚ
  stock_qty : ℚ
  warehouse : String
  serial_and_batch_bundle : Option String
  deriving DecidableEq

/-- Python list slice a[-k:] for a nonnegative k: for k = 0 the index -0 is
just 0 and the whole list is kept, otherwise the last min(k, len) elements
are kept. -/
def pySliceNeg (l : List α) (k : ℕ) : List α :=
  if k = 0 then l else l.drop (l.length - k)

/-- The quantity computation of one loop iteration of
get_items_with_location_and_quantity: take the smaller of candidate qty and
remaining qty, convert it to the requirement UOM through the conversion
factor (a falsy conversion factor divides by 1), and, for a whole-number
UOM, floor the converted qty and recompute the stock qty from it.  Returns
(qty, stock_qty) as emitted. -/
def allocTake (item : ItemDoc) (remaining : ℚ) (loc : ItemLocation) : ℚ × ℚ :=
  let stock_qty0 : ℚ := if loc.qty ≥ remaining then remaining else loc.qty
  let qty0 : ℚ :=
    stock_qty0 / (if item.conversion_factor = 0 then 1 else item.conversion_factor)
  let qty : ℚ := if item.uom_whole then ((⌊qty0⌋ : ℤ) : ℚ) else qty0
  let stock_qty : ℚ := if item.uom_whole then qty * item.conversion_factor else stock_qty0
  (qty, stock_qty)

/-- One iteration of the while loop of get_items_with_location_and_quantity
acting on the popped candidate.  Returns none for the break branch (UOM is
whole-number and the recomputed stock quantity is zero), otherwise the
emitted row, the new remaining stock quantity, and the shrunk candidate to
push back to the front of the queue when leftover quantity exists. -/
def allocStep (item : ItemDoc) (remaining : ℚ) (loc : ItemLocation) :
    Option (ResultRow × ℚ × Option ItemLocation) :=
  let qs := allocTake item remaining loc
  if item.uom_whole = true ∧ qs.2 = 0 then none
  else
    some (⟨qs.1, qs.2, loc.warehouse, loc.serial_and_batch_bundle⟩,
      remaining - qs.2,
      if 0 < loc.qty - qs.2 then
        some { loc with
          qty := loc.qty - qs.2,
          serial_no :=
            if loc.serial_no = [] then loc.serial_no
            else pySliceNeg loc.serial_no (⌊loc.qty - qs.2⌋.toNat) }
      else none)

/-- The while loop of get_items_with_location_and_quantity: consume the
candidate queue while the remaining stock quantity is positive, accumulating
emitted rows (in reverse).  Returns the emitted rows and the updated queue
(the source writes the updated queue back into item_location_map). -/
def allocLoop : ℕ → ItemDoc → ℚ → List ItemLocation → List ResultRow →
    List ResultRow × List ItemLocation
  | 0, _, _, queue, acc => (acc.reverse, queue)
  | fuel + 1, item, remaining, queue, acc =>
    if 0 < remaining then
      match queue with
      | [] => (acc.reverse, [])
      | loc :: rest =>
        match allocStep item remaining loc with
        | none => (acc.reverse, rest)
        | some (row, remaining2, some loc2) =>
          allocLoop fuel item remaining2 (loc2 :: rest) (row :: acc)
        | some (row, remaining2, none) =>
          allocLoop fuel item remaining2 rest (row :: acc)
    else (acc.reverse, queue)

/-- Initial remaining quantity of get_items_with_location_and_quantity:
if stock qty is zero on a submitted entry, use the requested qty so that a
restock can be picked up; otherwise use the stock quantity. -/
def remaining_stock_qty (item_doc : ItemDoc) (docstatus : ℤ) : ℚ :=
  if docstatus = 1 ∧ item_doc.stock_qty = 0 then item_doc.qty else item_doc.stock_qty

/-- Embedding of get_items_with_location_and_quantity: returns the emitted
location rows together with the updated available-location queue. -/
def get_items_with_location_and_quantity (item_doc : ItemDoc)
    (available_locations : List ItemLocation) (docstatus : ℤ) :
    List ResultRow × List ItemLocation :=
  allocLoop (2 * available_locations.length + 2) item_doc
    (remaining_stock_qty item_doc docstatus) available_locations []

/-- One location row as handled by the merge part of
PickList.set_item_locations.  The field ref models the value of
sales_order_item or material_request_item (the source coalesces the two
with a Python or before using it in the key). -/
structure LocRow where
  item_code : String
  warehouse : String
  uom : String
  batch_no : Option String
  serial_no : Option String
  ref : Option String
  qty : ℚ
  stock_qty : ℚ
  picked_qty : ℚ
  deriving DecidableEq

/-- The merge key used by set_item_locations for updated_locations. -/
def locKey (r : LocRow) :
    String × String × String × Option String × Option String × Option String :=
  (r.item_code, r.warehouse, r.uom, r.batch_no, r.serial_no, r.ref)

/-- Insertion of one row into the (insertion-ordered) updated_locations
dictionary of set_item_locations: the first row with a given key is kept
and later rows with the same key add their qty and stock_qty onto it. -/
def insertLoc (acc : List LocRow) (r : LocRow) : List LocRow :=
  match acc with
  | [] => [r]
  | a :: rest =>
    if locKey a = locKey r then
      { a with qty := a.qty + r.qty, stock_qty := a.stock_qty + r.stock_qty } :: rest
    else a :: insertLoc rest r

/-- The clamp applied by set_item_locations while appending merged rows:
if picked_qty exceeds stock_qty it is set to stock_qty. -/
def clampLoc (r : LocRow) : LocRow :=
  if r.stock_qty < r.picked_qty then { r with picked_qty := r.stock_qty } else r

/-- The post-allocation merge of set_item_locations: group rows by locKey
summing qty and stock_qty (insertion order preserved), then clamp each
picked_qty to the merged stock_qty. -/
def set_item_locations_merge (rows : List LocRow) : List LocRow :=
  (rows.foldl insertLoc []).map clampLoc

/-- Tail of set_item_locations: if the merged location table is empty and
the document is already submitted (docstatus 1), reinstate the replica of
the previous rows with stock_qty and picked_qty forced to zero and raise
the Out of Stock message (the Bool component); otherwise keep the merged
rows and raise nothing. -/
def finalize_item_locations (docstatus : ℤ) (locations_replica merged : List LocRow) :
    List LocRow × Bool :=
  if merged = [] ∧ docstatus = 1 then
    (locations_replica.map fun l => { l with stock_qty := 0, picked_qty := 0 }, true)
  else (merged, false)

/-- One Pick List Item row as read by the query in get_picked_items_qty. -/
structure PLItem where
  sales_order_item : String
  item_code : String
  sales_order : String
  stock_qty : ℚ
  picked_qty : ℚ
  docstatus : ℤ
  deriving DecidableEq

/-- One aggregated row returned by get_picked_items_qty: per
(sales_order_item, sales_order) group, the summed stock_qty and picked_qty
(item_code is a non-grouped selected column; the first row of the group
supplies it). -/
structure PickedRow where
  sales_order_item : String
  item_code : String
  sales_order : String
  stock_qty : ℚ
  picked_qty : ℚ
  deriving DecidableEq

/-- Grouped summation step for get_picked_items_qty. -/
def insertPickedRow (acc : List PickedRow) (r : PLItem) : List PickedRow :=
  match acc with
  | [] => [⟨r.sales_order_item, r.item_code, r.sales_order, r.stock_qty, r.picked_qty⟩]
  | a :: rest =>
    if a.sales_order_item = r.sales_order_item ∧ a.sales_order = r.sales_order then
      { a with
        stock_qty := a.stock_qty + r.stock_qty,
        picked_qty := a.picked_qty + r.picked_qty } :: rest
    else a :: insertPickedRow rest r

/-- Embedding of get_picked_items_qty: restrict to submitted rows whose
sales_order_item is among the requested items, then group by
(sales_order_item, sales_order) summing stock_qty and picked_qty.
The source takes this read with a for-update (row-locking) clause; locking
has no effect on the returned value and is not modelled. -/
def get_picked_items_qty (items : List String) (rows : List PLItem) :
    List PickedRow :=
  (rows.filter fun r =>
    decide (r.docstatus = 1) && items.contains r.sales_order_item).foldl
    insertPickedRow []

/-- Embedding of PickList.validate_picked_qty: walk the aggregated rows and
raise (Except.error, carrying the offending item_code and sales_order) on
the first row whose picked-to-stock percentage exceeds
100 + over_delivery_receipt_allowance; frappe.throw aborts the whole run,
so an error return means nothing is accepted. -/
def validate_picked_qty (allowance : ℚ) : List PickedRow → Except (String × String) Unit
  | [] => Except.ok ()
  | r :: rest =>
    if 100 + allowance < r.picked_qty / r.stock_qty * 100 then
      Except.error (r.item_code, r.sales_order)
    else validate_picked_qty allowance rest

/-- Python int() on a rational: truncation toward zero. -/
def pyInt (q : ℚ) : ℤ :=
  if 0 ≤ q then ⌊q⌋ else -⌊-q⌋

/-- The rounding used by frappe.utils.rounded: round half to even
(the float fuzz step round(num, 8) of the original is not modelled since
quantities are exact rationals here). -/
def roundHalfEven (q : ℚ) : ℤ :=
  if q - (⌊q⌋ : ℚ) = 1 / 2 then (if ⌊q⌋ % 2 = 0 then ⌊q⌋ else ⌊q⌋ + 1)
  else round q

/-- frappe.utils.flt with a precision argument: round the value half to
even at the given number of decimal digits. -/
def flt_prec (q : ℚ) (p : ℕ) : ℚ :=
  ((roundHalfEven (q * 10 ^ p) : ℚ)) / 10 ^ p

/-- One location row as read by _compute_picked_qty_for_bundle: the
composite-parent reference (product_bundle_item), the component item code
and the picked quantity. -/
structure BundleLocRow where
  product_bundle_item : String
  item_code : String
  picked_qty : ℚ
  deriving DecidableEq

/-- Dictionary get on the bundle component map. -/
def lookupQty (bundle_items : List (String × ℚ)) (k : String) : Option ℚ :=
  (bundle_items.find? fun p => p.1 == k).map Prod.snd

/-- Candidate bundle count contributed by one component row: the walrus
test in the source treats a missing component and a zero per-bundle
quantity alike (both falsy), contributing 0; otherwise the ratio
picked_qty / qty_in_bundle. -/
def componentRatio (bundle_items : List (String × ℚ)) (r : BundleLocRow) : ℚ :=
  match lookupQty bundle_items r.item_code with
  | some q => if q = 0 then 0 else r.picked_qty / q
  | none => 0

/-- The possible_bundles list of _compute_picked_qty_for_bundle: one entry
per location row belonging to the given bundle_row, in order. -/
def possibleBundles (locations : List BundleLocRow) (bundle_row : String)
    (bundle_items : List (String × ℚ)) : List ℚ :=
  locations.filterMap fun item =>
    if item.product_bundle_item = bundle_row then
      some (componentRatio bundle_items item)
    else none

/-- Embedding of PickList._compute_picked_qty_for_bundle: minimum of the
candidate counts, rounded by flt at the configured precision (6 when the
precision reads as falsy), truncated to an integer by int().  Python
min([]) raises, which is modelled by none. -/
def compute_picked_qty_for_bundle (precision : ℕ) (locations : List BundleLocRow)
    (bundle_row : String) (bundle_items : List (String × ℚ)) : Option ℤ :=
  match possibleBundles locations bundle_row bundle_items with
  | [] => none
  | x :: xs =>
    some (pyInt (flt_prec (xs.foldl min x) (if precision = 0 then 6 else precision)))

/-- The signed delta applied to the external picked counter by
update_bundle_picked_qty: the computed bundle count times +1 when the pick
list is submitted (docstatus 1) and -1 otherwise (cancellation). -/
def bundle_picked_qty_delta (docstatus : ℤ) (picked_qty : ℤ) : ℤ :=
  picked_qty * (if docstatus = 1 then 1 else -1)

lemma locKey_clampLoc (r : LocRow) : locKey (clampLoc r) = locKey r := by
  unfold clampLoc
  split <;> rfl

lemma clampLoc_idem (r : LocRow) : clampLoc (clampLoc r) = clampLoc r := by
  by_cases h : r.stock_qty < r.picked_qty <;> simp [clampLoc, h]

lemma insertLoc_keys (acc : List LocRow) (r : LocRow) :
    (insertLoc acc r).map locKey =
      if locKey r ∈ acc.map locKey then acc.map locKey
      else acc.map locKey ++ [locKey r] := by
  induction acc with
  | nil => simp [insertLoc]
  | cons a rest ih =>
    by_cases h : locKey a = locKey r
    · have hmem : locKey r ∈ (a :: rest).map locKey := by
        rw [List.map_cons, h]
        exact List.mem_cons_self _ _
      rw [if_pos hmem]
      simp only [insertLoc, if_pos h, List.map_cons]
      rfl
    · have hne : locKey r ≠ locKey a := fun hx => h hx.symm
      simp only [insertLoc, if_neg h, List.map_cons, ih]
      by_cases hm : locKey r ∈ rest.map locKey
      · rw [if_pos hm, if_pos (List.mem_cons_of_mem _ hm)]
      · rw [if_neg hm, if_neg (by rw [List.mem_cons, not_or]; exact ⟨hne, hm⟩),
          List.cons_append]

lemma insertLoc_nodup (acc : List LocRow) (r : LocRow)
    (h : (acc.map locKey).Nodup) : ((insertLoc acc r).map locKey).Nodup := by
  rw [insertLoc_keys]
  split
  · exact h
  · next hnm =>
    rw [List.nodup_append]
    exact ⟨h, List.nodup_singleton _, by
      intro x hx hx2
      rw [List.mem_singleton] at hx2
      exact hnm (hx2 ▸ hx)⟩

lemma foldl_insertLoc_nodup (rows : List LocRow) :
    ∀ acc : List LocRow, (acc.map locKey).Nodup →
      (((rows.foldl insertLoc acc)).map locKey).Nodup := by
  induction rows with
  | nil => intro acc h; simpa using h
  | cons y t ih => intro acc h; exact ih _ (insertLoc_nodup acc y h)

lemma insertLoc_of_new_key (acc : List LocRow) (r : LocRow)
    (h : locKey r ∉ acc.map locKey) : insertLoc acc r = acc ++ [r] := by
  induction acc with
  | nil => simp [insertLoc]
  | cons a rest ih =>
    rw [List.map_cons, List.mem_cons, not_or] at h
    have h1 : locKey a ≠ locKey r := fun hx => h.1 hx.symm
    simp only [insertLoc, if_neg h1, ih h.2, List.cons_append]

lemma foldl_insertLoc_of_nodup (ys : List LocRow) :
    ∀ acc : List LocRow, ((acc ++ ys).map locKey).Nodup →
      ys.foldl insertLoc acc = acc ++ ys := by
  induction ys with
  | nil => intro acc _; simp
  | cons y t ih =>
    intro acc h
    have hy : locKey y ∉ acc.map locKey := by
      rw [List.map_append, List.nodup_append] at h
      exact fun hmem => h.2.2 hmem (by simp)
    have hstep : insertLoc acc y = acc ++ [y] := insertLoc_of_new_key acc y hy
    have hrec := ih (acc ++ [y]) (by simpa using h)
    simp only [List.foldl_cons, hstep, hrec]
    simp

/-- C1: for an untracked item with a single requirement line of stock_qty
10 and a candidate queue of candidates (WH1, 4) and (WH2, 20), conversion
factor 1 and a non-whole-number UOM, the greedy allocator returns exactly
the rows (WH1, 4) then (WH2, 6), and the updated queue holds exactly
(WH2, 14). -/
theorem c1_untracked_greedy_scenario :
    get_items_with_location_and_quantity ⟨10, 10, 1, false⟩
      [⟨"WH1", 4, [], none⟩, ⟨"WH2", 20, [], none⟩] 0 =
    ([⟨4, 4, "WH1", none⟩, ⟨6, 6, "WH2", none⟩], [⟨"WH2", 14, [], none⟩]) := by
  simp [get_items_with_location_and_quantity, allocLoop, allocStep, allocTake,
    remaining_stock_qty]
  norm_num

/-- C6: after the post-allocation merge of set_item_locations every row
satisfies picked_qty less-or-equal stock_qty, and the merged table is
exactly the grouped table with each picked_qty clamped down to the merged
stock_qty (that is, replaced by the minimum of the carried-forward
picked_qty and the merged stock_qty). -/
theorem c6_merge_clamps_picked_qty (rows : List LocRow) :
    (∀ r ∈ set_item_locations_merge rows, r.picked_qty ≤ r.stock_qty) ∧
    set_item_locations_merge rows =
      (rows.foldl insertLoc []).map fun r =>
        { r with picked_qty := min r.picked_qty r.stock_qty } := by
  constructor
  · intro r hr
    rw [set_item_locations_merge, List.mem_map] at hr
    obtain ⟨x, _, rfl⟩ := hr
    by_cases h : x.stock_qty < x.picked_qty <;> simp [clampLoc, h]
    exact le_of_not_lt h
  · rw [set_item_locations_merge]
    congr 1
    funext r
    by_cases h : r.stock_qty < r.picked_qty
    · simp [clampLoc, h, min_eq_right (le_of_lt h)]
    · simp [clampLoc, h, min_eq_left (le_of_not_lt h)]

/-- C6 witness: the merge of a single row with picked_qty 5 and stock_qty 3
yields a row whose picked_qty is bounded by its stock_qty. -/
theorem c6_merge_clamps_picked_qty_witness :
    (⟨"A", "W", "U", none, none, none, 2, 3, 3⟩ : LocRow).picked_qty ≤
      (⟨"A", "W", "U", none, none, none, 2, 3, 3⟩ : LocRow).stock_qty :=
  (c6_merge_clamps_picked_qty
      [⟨"A", "W", "U", none, none, none, 2, 3, 5⟩]).1
    ⟨"A", "W", "U", none, none, none, 2, 3, 3⟩
    (by norm_num [set_item_locations_merge, insertLoc, clampLoc])

/-- C7: when the merged location table is empty for an already submitted
pick list (docstatus 1), set_item_locations reinstates the replica of the
previous rows with stock_qty and picked_qty forced to zero and raises the
Out of Stock prompt; the result is nonempty whenever the previous rows
were, and a nonempty merged table is kept as-is with no prompt. -/
theorem c7_empty_submitted_fallback (replica : List LocRow) :
    (finalize_item_locations 1 replica [] =
      (replica.map fun l => { l with stock_qty := 0, picked_qty := 0 }, true)) ∧
    (replica ≠ [] → (finalize_item_locations 1 replica []).1 ≠ []) ∧
    (∀ (docstatus : ℤ) (merged : List LocRow), merged ≠ [] →
      finalize_item_locations docstatus replica merged = (merged, false)) := by
  refine ⟨by simp [finalize_item_locations], ?_, ?_⟩
  · intro h
    simp [finalize_item_locations, h]
  · intro docstatus merged h
    simp [finalize_item_locations, h]

/-- C7 witness: with one previous row and an empty merge for a submitted
document, the reinstated table is nonempty. -/
theorem c7_empty_submitted_fallback_witness :
    (finalize_item_locations 1 [⟨"A", "W", "U", none, none, none, 2, 3, 5⟩] []).1 ≠ [] :=
  (c7_empty_submitted_fallback [⟨"A", "W", "U", none, none, none, 2, 3, 5⟩]).2.1
    (by simp)

/-- C8: the allocator starts from remaining = qty exactly when the line is
submitted (docstatus 1) with stored stock_qty zero, from remaining =
stock_qty in every other case, and get_items_with_location_and_quantity
runs its loop on exactly this initial remaining quantity. -/
theorem c8_restock_remaining_qty (item_doc : ItemDoc) (docstatus : ℤ) :
    (docstatus = 1 → item_doc.stock_qty = 0 →
      remaining_stock_qty item_doc docstatus = item_doc.qty) ∧
    (¬(docstatus = 1 ∧ item_doc.stock_qty = 0) →
      remaining_stock_qty item_doc docstatus = item_doc.stock_qty) ∧
    ∀ queue, get_items_with_location_and_quantity item_doc queue docstatus =
      allocLoop (2 * queue.length + 2) item_doc
        (remaining_stock_qty item_doc docstatus) queue [] := by
  refine ⟨?_, ?_, fun _ => rfl⟩
  · intro h1 h2
    simp [remaining_stock_qty, h1, h2]
  · intro h
    simp [remaining_stock_qty, h]

/-- C8 witness: a submitted line with stock_qty 0 and qty 5 starts from
remaining 5. -/
theorem c8_restock_remaining_qty_witness :
    remaining_stock_qty ⟨5, 0, 1, false⟩ 1 = 5 :=
  (c8_restock_remaining_qty ⟨5, 0, 1, false⟩ 1).1 rfl rfl

/-- C9: the post-allocation merge is idempotent: its output has pairwise
distinct merge keys and clamped picked quantities, so feeding it back
through the merge yields the identical list of rows. -/
theorem c9_remerge_is_identity (rows : List LocRow) :
    set_item_locations_merge (set_item_locations_merge rows) =
      set_item_locations_merge rows := by
  have hnd : (((rows.foldl insertLoc []).map clampLoc).map locKey).Nodup := by
    have h0 : ((rows.foldl insertLoc []).map locKey).Nodup :=
      foldl_insertLoc_nodup rows [] (by simp)
    rw [List.map_map, show locKey ∘ clampLoc = locKey from funext locKey_clampLoc]
    exact h0
  calc set_item_locations_merge (set_item_locations_merge rows)
      = ((((rows.foldl insertLoc []).map clampLoc).foldl insertLoc []).map clampLoc) := rfl
    _ = (((rows.foldl insertLoc []).map clampLoc).map clampLoc) := by
        rw [foldl_insertLoc_of_nodup _ [] (by simpa using hnd)]
        simp
    _ = set_item_locations_merge rows := by
        rw [set_item_locations_merge, List.map_map,
          show clampLoc ∘ clampLoc = clampLoc from funext clampLoc_idem]

lemma validate_ok_iff (allowance : ℚ) (data : List PickedRow) :
    validate_picked_qty allowance data = Except.ok () ↔
      ∀ r ∈ data, ¬(100 + allowance < r.picked_qty / r.stock_qty * 100) := by
  induction data with
  | nil => simp [validate_picked_qty]
  | cons r rest ih =>
    by_cases h : 100 + allowance < r.picked_qty / r.stock_qty * 100
    · simp [validate_picked_qty, h]
    · simp [validate_picked_qty, h, ih]
      intro _
      exact not_lt.1 h

lemma validate_error_mem (allowance : ℚ) (data : List PickedRow)
    (e : String × String) (h : validate_picked_qty allowance data = Except.error e) :
    ∃ r ∈ data, e = (r.item_code, r.sales_order) ∧
      100 + allowance < r.picked_qty / r.stock_qty * 100 := by
  induction data with
  | nil => simp [validate_picked_qty] at h
  | cons r rest ih =>
    by_cases hr : 100 + allowance < r.picked_qty / r.stock_qty * 100
    · rw [validate_picked_qty, if_pos hr, Except.error.injEq] at h
      exact ⟨r, List.mem_cons_self _ _, h.symm, hr⟩
    · rw [validate_picked_qty, if_neg hr] at h
      obtain ⟨x, hx, hx2⟩ := ih h
      exact ⟨x, List.mem_cons_of_mem _ hx, hx2⟩

lemma over_allowance_iff (a p s : ℚ) (hs : 0 < s) :
    100 + a < p / s * 100 ↔ s * (1 + a / 100) < p := by
  rw [div_mul_eq_mul_div, lt_div_iff₀ hs,
    show s * (1 + a / 100) = (100 + a) * s / 100 by ring,
    div_lt_iff₀ (show (0 : ℚ) < 100 by norm_num)]

/-- C4: for each distinct originating reference, get_picked_items_qty sums
picked_qty and stock_qty over its rows, and validate_picked_qty accepts the
run exactly when every aggregated row satisfies
picked_qty less-or-equal stock_qty times (1 + allowance/100); a violation
makes the whole run end in an error naming the item and the sales order of
an offending aggregated row, never a partial acceptance (an Except.error
result carries no accepted rows at all). -/
theorem c4_over_allocation_guard (allowance : ℚ) (items : List String)
    (rows : List PLItem)
    (hpos : ∀ r ∈ get_picked_items_qty items rows, 0 < r.stock_qty) :
    (validate_picked_qty allowance (get_picked_items_qty items rows) = Except.ok () ↔
      ∀ r ∈ get_picked_items_qty items rows,
        r.picked_qty ≤ r.stock_qty * (1 + allowance / 100)) ∧
    ∀ e, validate_picked_qty allowance (get_picked_items_qty items rows) =
        Except.error e →
      ∃ r ∈ get_picked_items_qty items rows,
        e = (r.item_code, r.sales_order) ∧
        r.stock_qty * (1 + allowance / 100) < r.picked_qty := by
  constructor
  · rw [validate_ok_iff]
    constructor
    · intro h r hr
      have h2 := h r hr
      rw [over_allowance_iff allowance r.picked_qty r.stock_qty (hpos r hr)] at h2
      exact le_of_not_lt h2
    · intro h r hr
      rw [over_allowance_iff allowance r.picked_qty r.stock_qty (hpos r hr)]
      exact not_lt_of_le (h r hr)
  · intro e he
    obtain ⟨r, hr, he2, hgt⟩ := validate_error_mem allowance _ e he
    exact ⟨r, hr, he2,
      (over_allowance_iff allowance r.picked_qty r.stock_qty (hpos r hr)).1 hgt⟩

/-- C4 witness: two submitted rows of the same reference sum to stock 10
and picked 10, which passes the guard at allowance 0. -/
theorem c4_over_allocation_guard_witness :
    validate_picked_qty 0
      (get_picked_items_qty ["SOI1"]
        [⟨"SOI1", "ITEM", "SO1", 6, 5, 1⟩, ⟨"SOI1", "ITEM", "SO1", 4, 5, 1⟩]) =
      Except.ok () :=
  (c4_over_allocation_guard 0 ["SOI1"]
      [⟨"SOI1", "ITEM", "SO1", 6, 5, 1⟩, ⟨"SOI1", "ITEM", "SO1", 4, 5, 1⟩]
      (by norm_num [get_picked_items_qty, insertPickedRow])).1.mpr
    (by norm_num [get_picked_items_qty, insertPickedRow])

lemma foldl_min_mem (xs : List ℚ) : ∀ x : ℚ, xs.foldl min x ∈ x :: xs := by
  induction xs with
  | nil => intro x; simp
  | cons y t ih =>
    intro x
    simp only [List.foldl_cons]
    rcases List.mem_cons.1 (ih (min x y)) with h1 | h1
    · rcases min_choice x y with hc | hc
      · rw [h1, hc]; exact List.mem_cons_self _ _
      · rw [h1, hc]; exact List.mem_cons_of_mem _ (List.mem_cons_self _ _)
    · exact List.mem_cons_of_mem _ (List.mem_cons_of_mem _ h1)

lemma foldl_min_le (xs : List ℚ) :
    ∀ x q : ℚ, q ∈ x :: xs → xs.foldl min x ≤ q := by
  induction xs with
  | nil =>
    intro x q hq
    rw [List.mem_singleton] at hq
    simp [hq]
  | cons y t ih =>
    intro x q hq
    simp only [List.foldl_cons]
    have hmin : t.foldl min (min x y) ≤ min x y :=
      ih (min x y) (min x y) (List.mem_cons_self _ _)
    rcases List.mem_cons.1 hq with rfl | hq2
    · exact hmin.trans (min_le_left _ _)
    · rcases List.mem_cons.1 hq2 with rfl | hq3
      · exact hmin.trans (min_le_right _ _)
      · exact ih (min x y) q (List.mem_cons_of_mem _ hq3)

/-- C5: the producible bundle count is the minimum over all component rows
of picked_qty over required-per-bundle qty (0 for an unmapped component),
rounded by flt at the configured precision (6 when the precision setting is
falsy) and truncated to an integer by int(); for a bundle requiring 2 of A
and 3 of B with picked 5 A and 7 B the count is 2; and the delta applied to
the external picked counter is the count times +1 on submit (docstatus 1)
and times -1 on cancel. -/
theorem c5_bundle_minimum_rule :
    (compute_picked_qty_for_bundle 0
        [⟨"SO1", "A", 5⟩, ⟨"SO1", "B", 7⟩] "SO1" [("A", 2), ("B", 3)] = some 2) ∧
    (∀ (precision : ℕ) (locations : List BundleLocRow) (bundle_row : String)
        (bundle_items : List (String × ℚ)),
      possibleBundles locations bundle_row bundle_items ≠ [] →
      ∃ m, m ∈ possibleBundles locations bundle_row bundle_items ∧
        (∀ q ∈ possibleBundles locations bundle_row bundle_items, m ≤ q) ∧
        compute_picked_qty_for_bundle precision locations bundle_row bundle_items =
          some (pyInt (flt_prec m (if precision = 0 then 6 else precision)))) ∧
    ∀ n : ℤ, bundle_picked_qty_delta 1 n = n ∧ bundle_picked_qty_delta 2 n = -n := by
  refine ⟨?_, ?_, ?_⟩
  · have hpb : possibleBundles [⟨"SO1", "A", 5⟩, ⟨"SO1", "B", 7⟩] "SO1"
        [("A", 2), ("B", 3)] = [5 / 2, 7 / 3] := by
      simp [possibleBundles, componentRatio, lookupQty, List.find?]
    have hmin : ([(7 : ℚ) / 3]).foldl min (5 / 2) = 7 / 3 := by
      norm_num [min_def]
    have hfloor : (⌊(7 : ℚ) / 3 * 10 ^ 6⌋ : ℤ) = 2333333 := by
      rw [Int.floor_eq_iff]
      norm_num
    have hround : roundHalfEven ((7 : ℚ) / 3 * 10 ^ 6) = 2333333 := by
      unfold roundHalfEven
      rw [hfloor, if_neg (by norm_num), round_eq, Int.floor_eq_iff]
      norm_num
    simp only [compute_picked_qty_for_bundle, hpb, hmin]
    norm_num [flt_prec]
    rw [show ((7000000 : ℚ) / 3) = 7 / 3 * 10 ^ 6 by norm_num, hround]
    unfold pyInt
    rw [if_pos (by positivity), Int.floor_eq_iff]
    norm_num
  · intro precision locations bundle_row bundle_items hne
    rcases hpb : possibleBundles locations bundle_row bundle_items with _ | ⟨x, xs⟩
    · exact absurd hpb hne
    · refine ⟨xs.foldl min x, ?_, ?_, ?_⟩
      · exact foldl_min_mem xs x
      · intro q hq
        exact foldl_min_le xs x q hq
      · simp only [compute_picked_qty_for_bundle, hpb]
  · intro n
    constructor
    · simp [bundle_picked_qty_delta]
    · norm_num [bundle_picked_qty_delta]

/-- C5 witness: a single component row gives the ratio itself as the
minimum. -/
theorem c5_bundle_minimum_rule_witness :
    ∃ m, m ∈ possibleBundles [⟨"SO1", "A", 5⟩] "SO1" [("A", 2)] ∧
      (∀ q ∈ possibleBundles [⟨"SO1", "A", 5⟩] "SO1" [("A", 2)], m ≤ q) ∧
      compute_picked_qty_for_bundle 0 [⟨"SO1", "A", 5⟩] "SO1" [("A", 2)] =
        some (pyInt (flt_prec m (if (0 : ℕ) = 0 then 6 else 0))) :=
  c5_bundle_minimum_rule.2.1 0 [⟨"SO1", "A", 5⟩] "SO1" [("A", 2)]
    (by simp [possibleBundles, componentRatio, lookupQty, List.find?])

lemma allocStep_eq_some (item : ItemDoc) (remaining : ℚ) (loc : ItemLocation)
    (row : ResultRow) (remaining2 : ℚ) (requeue : Option ItemLocation)
    (hstep : allocStep item remaining loc = some (row, remaining2, requeue)) :
    remaining2 = remaining - row.stock_qty ∧
    row.warehouse = loc.warehouse ∧
    row.serial_and_batch_bundle = loc.serial_and_batch_bundle ∧
    requeue = (if 0 < loc.qty - row.stock_qty then
        some { loc with
          qty := loc.qty - row.stock_qty,
          serial_no :=
            if loc.serial_no = [] then loc.serial_no
            else pySliceNeg loc.serial_no (⌊loc.qty - row.stock_qty⌋.toNat) }
      else none) := by
  simp only [allocStep] at hstep
  by_cases hcond : item.uom_whole = true ∧ (allocTake item remaining loc).2 = 0
  · rw [if_pos hcond] at hstep
    cases hstep
  · rw [if_neg hcond, Option.some.injEq, Prod.mk.injEq, Prod.mk.injEq] at hstep
    obtain ⟨hrow, hrem2, hreq⟩ := hstep
    subst hrow
    subst hrem2
    subst hreq
    exact ⟨rfl, rfl, rfl, rfl⟩

/-- C2: whenever an allocation step consumes a popped candidate and leaves
leftover quantity (candidate qty minus the taken stock quantity is
positive), the loop pushes the shrunk candidate back at the front
(position 0) of the queue; and when the candidate carries a serial list of
length equal to its quantity, the requeued remainder keeps exactly the tail
slice of the original serial list whose length equals the leftover
quantity. -/
theorem c2_leftover_requeued_at_front (item : ItemDoc) (remaining : ℚ)
    (loc : ItemLocation) (row : ResultRow) (remaining2 : ℚ)
    (requeue : Option ItemLocation)
    (hstep : allocStep item remaining loc = some (row, remaining2, requeue))
    (hleft : 0 < loc.qty - row.stock_qty) :
    ∃ loc2, requeue = some loc2 ∧
      loc2.qty = loc.qty - row.stock_qty ∧
      loc2.warehouse = loc.warehouse ∧
      (∀ (fuel : ℕ) (rest : List ItemLocation) (acc : List ResultRow),
        0 < remaining →
        allocLoop (fuel + 1) item remaining (loc :: rest) acc =
          allocLoop fuel item remaining2 (loc2 :: rest) (row :: acc)) ∧
      ∀ k : ℕ, loc.serial_no ≠ [] → (k : ℚ) = loc.qty - row.stock_qty →
        k ≤ loc.serial_no.length →
        loc2.serial_no = loc.serial_no.drop (loc.serial_no.length - k) ∧
        loc2.serial_no.length = k := by
  obtain ⟨hrem2, hwh, hbun, hreq⟩ :=
    allocStep_eq_some item remaining loc row remaining2 requeue hstep
  rw [if_pos hleft] at hreq
  refine ⟨_, hreq, rfl, rfl, ?_, ?_⟩
  · intro fuel rest acc hrem
    simp only [allocLoop, if_pos hrem, hstep, hreq]
  · intro k hne hk hkle
    have hfloor : ⌊loc.qty - row.stock_qty⌋ = (k : ℤ) := by
      rw [← hk]
      exact Int.floor_natCast k
    have hk0 : k ≠ 0 := by
      intro h0
      rw [h0] at hk
      rw [← hk] at hleft
      exact absurd hleft (by norm_num)
    have hserial :
        (if loc.serial_no = [] then loc.serial_no
          else pySliceNeg loc.serial_no (⌊loc.qty - row.stock_qty⌋.toNat)) =
        loc.serial_no.drop (loc.serial_no.length - k) := by
      rw [if_neg hne, hfloor, Int.toNat_natCast, pySliceNeg, if_neg hk0]
    refine ⟨hserial, ?_⟩
    show (if loc.serial_no = [] then loc.serial_no
      else pySliceNeg loc.serial_no (⌊loc.qty - row.stock_qty⌋.toNat)).length = k
    rw [hserial, List.length_drop]
    omega

/-- C2 witness: an untracked-UOM step taking 2 from a candidate of qty 5
with serial list of length 5 requeues the candidate at qty 3 holding the
last three serials. -/
theorem c2_leftover_requeued_at_front_witness :
    ∃ loc2 : ItemLocation,
      some (⟨"W", 3, ["s3", "s4", "s5"], none⟩ : ItemLocation) = some loc2 ∧
      loc2.qty = 3 ∧
      allocLoop 1 ⟨10, 10, 1, false⟩ 2
          [⟨"W", 5, ["s1", "s2", "s3", "s4", "s5"], none⟩] [] =
        allocLoop 0 ⟨10, 10, 1, false⟩ 0
          [loc2] [⟨2, 2, "W", none⟩] ∧
      loc2.serial_no = ["s3", "s4", "s5"] ∧ loc2.serial_no.length = 3 := by
  have hstep : allocStep ⟨10, 10, 1, false⟩ 2
      ⟨"W", 5, ["s1", "s2", "s3", "s4", "s5"], none⟩ =
      some (⟨2, 2, "W", none⟩, 0, some ⟨"W", 3, ["s3", "s4", "s5"], none⟩) := by
    have h3 : (⌊(5 : ℚ) - 2⌋ : ℤ) = 3 := by
      norm_num
    simp [allocStep, allocTake, pySliceNeg, h3]
    norm_num
    decide
  obtain ⟨loc2, hreq, hqty, hwh, hloop, hserial⟩ :=
    c2_leftover_requeued_at_front ⟨10, 10, 1, false⟩ 2
      ⟨"W", 5, ["s1", "s2", "s3", "s4", "s5"], none⟩
      ⟨2, 2, "W", none⟩ 0 (some ⟨"W", 3, ["s3", "s4", "s5"], none⟩)
      hstep (by norm_num)
  refine ⟨loc2, hreq, ?_, ?_, ?_, ?_⟩
  · rw [hqty]
    norm_num
  · exact hloop 0 [] [] (by norm_num)
  · obtain ⟨h1, _⟩ := hserial 3 (by simp) (by norm_num) (by norm_num)
    rw [h1]
    decide
  · obtain ⟨_, h2⟩ := hserial 3 (by simp) (by norm_num) (by norm_num)
    exact h2

lemma allocStep_whole_row (item : ItemDoc) (hw : item.uom_whole = true)
    (remaining : ℚ) (loc : ItemLocation) (row : ResultRow) (remaining2 : ℚ)
    (requeue : Option ItemLocation)
    (hstep : allocStep item remaining loc = some (row, remaining2, requeue)) :
    (∃ n : ℤ, row.qty = (n : ℚ)) ∧
      row.stock_qty = row.qty * item.conversion_factor := by
  simp only [allocStep] at hstep
  by_cases hcond : item.uom_whole = true ∧ (allocTake item remaining loc).2 = 0
  · rw [if_pos hcond] at hstep
    cases hstep
  · rw [if_neg hcond, Option.some.injEq, Prod.mk.injEq, Prod.mk.injEq] at hstep
    obtain ⟨hrow, _, _⟩ := hstep
    subst hrow
    constructor
    · refine ⟨⌊(if loc.qty ≥ remaining then remaining else loc.qty) /
        (if item.conversion_factor = 0 then 1 else item.conversion_factor)⌋, ?_⟩
      show (allocTake item remaining loc).1 = _
      simp [allocTake, hw]
    · show (allocTake item remaining loc).2 = (allocTake item remaining loc).1 * _
      simp [allocTake, hw]

lemma allocLoop_whole_rows (item : ItemDoc) (hw : item.uom_whole = true) :
    ∀ (fuel : ℕ) (remaining : ℚ) (queue : List ItemLocation)
      (acc : List ResultRow),
      (∀ r ∈ acc, (∃ n : ℤ, r.qty = (n : ℚ)) ∧
        r.stock_qty = r.qty * item.conversion_factor) →
      ∀ r ∈ (allocLoop fuel item remaining queue acc).1,
        (∃ n : ℤ, r.qty = (n : ℚ)) ∧
        r.stock_qty = r.qty * item.conversion_factor := by
  intro fuel
  induction fuel with
  | zero =>
    intro remaining queue acc hacc r hr
    simp only [allocLoop] at hr
    exact hacc r (List.mem_reverse.1 hr)
  | succ fuel ih =>
    intro remaining queue acc hacc r hr
    by_cases hrem : 0 < remaining
    · cases queue with
      | nil =>
        simp only [allocLoop, if_pos hrem] at hr
        exact hacc r (List.mem_reverse.1 hr)
      | cons loc rest =>
        cases hstep : allocStep item remaining loc with
        | none =>
          simp only [allocLoop, if_pos hrem, hstep] at hr
          exact hacc r (List.mem_reverse.1 hr)
        | some t =>
          obtain ⟨row, remaining2, requeue⟩ := t
          have hrow := allocStep_whole_row item hw remaining loc row remaining2
            requeue hstep
          have hacc2 : ∀ x ∈ row :: acc, (∃ n : ℤ, x.qty = (n : ℚ)) ∧
              x.stock_qty = x.qty * item.conversion_factor := by
            intro x hx
            rcases List.mem_cons.1 hx with rfl | hx2
            · exact hrow
            · exact hacc x hx2
          cases requeue with
          | some loc2 =>
            simp only [allocLoop, if_pos hrem, hstep] at hr
            exact ih remaining2 (loc2 :: rest) (row :: acc) hacc2 r hr
          | none =>
            simp only [allocLoop, if_pos hrem, hstep] at hr
            exact ih remaining2 rest (row :: acc) hacc2 r hr
    · simp only [allocLoop, if_neg hrem] at hr
      exact hacc r (List.mem_reverse.1 hr)

/-- C3: for a whole-number UOM every emitted result row has an integer UOM
quantity and its stock quantity equals qty times conversion_factor
recomputed from the floored value; and when the floor of the converted
take is zero the loop discards the candidate entirely and stops: the
output is only what was already emitted and the zero-yield candidate is
not requeued. -/
theorem c3_whole_number_uom (item : ItemDoc) (hw : item.uom_whole = true) :
    (∀ (queue : List ItemLocation) (docstatus : ℤ),
      ∀ r ∈ (get_items_with_location_and_quantity item queue docstatus).1,
        (∃ n : ℤ, r.qty = (n : ℚ)) ∧
        r.stock_qty = r.qty * item.conversion_factor) ∧
    ∀ (fuel : ℕ) (remaining : ℚ) (loc : ItemLocation)
      (rest : List ItemLocation) (acc : List ResultRow),
      0 < remaining → item.conversion_factor ≠ 0 →
      ⌊(if loc.qty ≥ remaining then remaining else loc.qty) /
          item.conversion_factor⌋ = 0 →
      allocLoop (fuel + 1) item remaining (loc :: rest) acc =
        (acc.reverse, rest) := by
  constructor
  · intro queue docstatus r hr
    exact allocLoop_whole_rows item hw _ _ _ _ (by intro x hx; cases hx) r hr
  · intro fuel remaining loc rest acc hrem hcf hfloor
    have hstep : allocStep item remaining loc = none := by
      have htake : (allocTake item remaining loc).2 = 0 := by
        simp only [allocTake, hw, if_neg hcf, if_true, ite_true, hfloor]
        norm_num
      simp only [allocStep, if_pos (And.intro hw htake)]
    simp only [allocLoop, if_pos hrem, hstep]

/-- C3 witness: with conversion factor 1 and remaining one half, the floor
of the converted take is zero, so the loop stops with no emitted rows and
drops the candidate. -/
theorem c3_whole_number_uom_witness :
    allocLoop 1 ⟨10, 10, 1, true⟩ (1 / 2) [⟨"W", 5, [], none⟩] [] = ([], []) := by
  have h := (c3_whole_number_uom ⟨10, 10, 1, true⟩ rfl).2 0 (1 / 2)
    ⟨"W", 5, [], none⟩ [] [] (by norm_num) (by norm_num)
    (by
      rw [if_pos (by norm_num : (5 : ℚ) ≥ 1 / 2)]
      norm_num [Int.floor_eq_iff])
  simpa using h
